import Mathlib

/-!
Shallow embedding of the Masstree page layer of the foedus storage engine
(`foedus/storage/masstree/masstree_page_impl.hpp` and
`foedus/storage/masstree/masstree_storage.hpp`), together with theorems about
the search, slot-reservation and locking operations.

Machine integers are modelled as `Nat`, with an explicit `% 2 ^ w` where the
source's fixed-width arithmetic can overflow. Arrays inside a 4 KiB page are
modelled as total functions `Nat → Nat`; only indices below the relevant
bounds (64 slots, `kDataSize` data bytes) correspond to real memory.
-/

namespace Foedus

/-- KeySlice: 64-bit unsigned integer holding 8 key bytes in big-endian order. -/
abbrev KeySlice := Nat

/-- Max number of keys in a border page (`kMaxKeys`). -/
abbrev kMaxKeys : Nat := 64

/-- Special value for `remaining_key_length_`: the slot points to the next layer. -/
abbrev kKeyLengthNextLayer : Nat := 255

/-- Maximum value for `remaining_key_length_`. -/
abbrev kKeyLengthMax : Nat := 254

/-- Header size of a border page in bytes. -/
abbrev kHeaderSize : Nat := 1344

/-- Size of the record-heap data region `data_` of a border page: 4096 - 1344 = 2752. -/
abbrev kDataSize : Nat := 4096 - kHeaderSize

/-- Maximum number of top-level separators in an intermediate page. -/
abbrev kMaxIntermediateSeparators : Nat := 9

/-- Maximum number of separators in one mini-page of an intermediate page. -/
abbrev kMaxIntermediateMiniSeparators : Nat := 15

/-- Modelled from the spec: the page version word of section 4.1
(`masstree_page_version.hpp` is not under src/). One 64-bit atomic carrying the
lock bit, insert-in-progress bit, split-in-progress bit, deleted / foster bits,
layer index, key count and the monotonic split counter. -/
structure MasstreePageVersion where
  locked : Bool
  inserting : Bool
  splitting : Bool
  deleted : Bool
  has_foster : Bool
  is_root : Bool
  layer : Nat
  key_count : Nat
  vsplit : Nat
deriving DecidableEq

/-- Modelled from the spec: `lock()` spins CAS until the locked bit transitions 0 to 1
(section 4.1); the quiescent result is the word with the locked bit set.
(`masstree_page_version.hpp` is not under src/.) -/
def lock_version (v : MasstreePageVersion) : MasstreePageVersion :=
  { v with locked := true }

/-- Modelled from the spec: `unlock()` clears inserting, splitting and locked, and bumps
`vsplit` iff splitting was set (section 4.1).
(`masstree_page_version.hpp` is not under src/.) -/
def unlock_version (v : MasstreePageVersion) : MasstreePageVersion :=
  { v with
    locked := false
    inserting := false
    splitting := false
    vsplit := if v.splitting then v.vsplit + 1 else v.vsplit }

/-- Common header of a Masstree page: snapshot flag (from `PageHeader`), the inclusive
low fence, the high fence, the in-layer parent back-link (opaque pointer) and the
page version word. -/
structure MasstreePage where
  snapshot_ : Bool
  low_fence_ : KeySlice
  high_fence_ : KeySlice
  in_layer_parent_ : Nat
  page_version_ : MasstreePageVersion

/-- MasstreePage::get_low_fence. -/
def MasstreePage.get_low_fence (p : MasstreePage) : KeySlice := p.low_fence_

/-- MasstreePage::get_high_fence. -/
def MasstreePage.get_high_fence (p : MasstreePage) : KeySlice := p.high_fence_

/-- MasstreePage::lock: locks the page version word, but only when the page is not a
snapshot page (`if (!header_.snapshot_) page_version_.lock_version();`). -/
def MasstreePage.lock (p : MasstreePage) : MasstreePage :=
  if p.snapshot_ then p else { p with page_version_ := lock_version p.page_version_ }

/-- MasstreePage::unlock: unlocks the page version word, but only when the page is not a
snapshot page (`if (!header_.snapshot_) page_version_.unlock_version();`). -/
def MasstreePage.unlock (p : MasstreePage) : MasstreePage :=
  if p.snapshot_ then p else { p with page_version_ := unlock_version p.page_version_ }

/-- One mini-page of an intermediate page: its own version word, up to 15 separators and
16 dual pointers (pointers modelled as opaque numbers). -/
structure MiniPage where
  mini_version_ : MasstreePageVersion
  separators_ : Nat → KeySlice
  pointers_ : Nat → Nat

/-- An intermediate page: up to 9 top-level separators and 10 mini-pages. -/
structure MasstreeIntermediatePage extends MasstreePage where
  separators_ : Nat → KeySlice
  mini_pages_ : Nat → MiniPage

/-- The common loop of `find_minipage` and `MiniPage::find_pointer`:
`for (i = 0; i < separator_count; ++i) if (slice < separators_[i]) return i;
return separator_count;`. The first argument of the recursion is the current loop
index, the second the number of separators still to scan. -/
def findSepAux (sep : Nat → KeySlice) (slice : KeySlice) : Nat → Nat → Nat
  | i, 0 => i
  | i, n + 1 => if slice < sep i then i else findSepAux sep slice (i + 1) n

/-- MiniPage::find_pointer: navigates a searching key-slice to one of the pointers in
this mini-page, scanning `stable.get_key_count()` separators. -/
def MiniPage.find_pointer (m : MiniPage) (stable : MasstreePageVersion)
    (slice : KeySlice) : Nat :=
  findSepAux m.separators_ slice 0 stable.key_count

/-- MasstreeIntermediatePage::find_minipage: navigates a searching key-slice to one of
the mini-pages, scanning `stable.get_key_count()` separators. -/
def MasstreeIntermediatePage.find_minipage (p : MasstreeIntermediatePage)
    (stable : MasstreePageVersion) (slice : KeySlice) : Nat :=
  findSepAux p.separators_ slice 0 stable.key_count

/-- A border page: the common header plus the five per-slot metadata arrays and the
record-heap byte array `data_`. `owner_ids_` entries are opaque transactional words. -/
structure MasstreeBorderPage extends MasstreePage where
  remaining_key_length_ : Nat → Nat
  slices_ : Nat → KeySlice
  offsets_ : Nat → Nat
  payload_length_ : Nat → Nat
  owner_ids_ : Nat → Nat
  data_ : Nat → Nat

/-- Pointwise update of a metadata array at one slot. -/
def upd (f : Nat → Nat) (i v : Nat) : Nat → Nat :=
  fun j => if j = i then v else f j

/-- MasstreeBorderPage::get_record: `data_ + (offsets_[index] << 4)`, as the reader of
the record's bytes (byte `k` of the record is `data_[16 * offsets_[index] + k]`). -/
def MasstreeBorderPage.get_record (p : MasstreeBorderPage) (index : Nat) : Nat → Nat :=
  fun k => p.data_ (16 * p.offsets_ index + k)

/-- MasstreeBorderPage::does_point_to_layer:
`remaining_key_length_[index] == kKeyLengthNextLayer`. -/
def MasstreeBorderPage.does_point_to_layer (p : MasstreeBorderPage) (index : Nat) : Bool :=
  p.remaining_key_length_ index == kKeyLengthNextLayer

/-- Byte-wise equality of two byte sequences over the first `n` bytes (`std::memcmp`
returning zero). -/
def bytesEq (a b : Nat → Nat) (n : Nat) : Bool :=
  (List.range n).all fun k => a k == b k

/-- The loop body of MasstreeBorderPage::find_key, scanning slot `i` and `n` further
slots. Faithful to the source, including that the suffix comparison reads
`get_record(offsets_[i])`. -/
def findKeyAux (p : MasstreeBorderPage) (slice : KeySlice) (suffix : Nat → Nat)
    (remaining : Nat) : Nat → Nat → Nat
  | _, 0 => kMaxKeys
  | i, n + 1 =>
    if slice ≠ p.slices_ i then findKeyAux p slice suffix remaining (i + 1) n
    else if remaining ≤ 8 then
      if p.remaining_key_length_ i = remaining then i
      else findKeyAux p slice suffix remaining (i + 1) n
    else if p.does_point_to_layer i then i
    else if p.remaining_key_length_ i = remaining ∧
        bytesEq (p.get_record (p.offsets_ i)) suffix (remaining - 8) = true then i
    else if 8 < p.remaining_key_length_ i then kMaxKeys
    else findKeyAux p slice suffix remaining (i + 1) n

/-- MasstreeBorderPage::find_key: scans the `stable.get_key_count()` slots for the
given slice / suffix / remaining length; returns the found index or `kMaxKeys`. -/
def MasstreeBorderPage.find_key (p : MasstreeBorderPage) (stable : MasstreePageVersion)
    (slice : KeySlice) (suffix : Nat → Nat) (remaining : Nat) : Nat :=
  findKeyAux p slice suffix remaining 0 stable.key_count

/-- The loop body of MasstreeBorderPage::find_key_normalized. -/
def findKeyNormAux (p : MasstreeBorderPage) (slice : KeySlice) : Nat → Nat → Nat
  | _, 0 => kMaxKeys
  | i, n + 1 =>
    if slice = p.slices_ i ∧ p.remaining_key_length_ i = 8 then i
    else findKeyNormAux p slice (i + 1) n

/-- MasstreeBorderPage::find_key_normalized: scans slots `from_index` to `to_index`
for an exactly-8-byte key with the given slice. -/
def MasstreeBorderPage.find_key_normalized (p : MasstreeBorderPage)
    (from_index to_index : Nat) (slice : KeySlice) : Nat :=
  findKeyNormAux p slice from_index (to_index - from_index)

/-- MatchType of find_key_for_reserve. -/
inductive MatchType where
  | kNotFound
  | kExactMatchLocalRecord
  | kExactMatchLayerPointer
  | kConflictingLocalRecord
deriving DecidableEq

/-- Return value of find_key_for_reserve. -/
structure FindKeyForReserveResult where
  index_ : Nat
  match_type_ : MatchType
deriving DecidableEq

/-- The loop body of MasstreeBorderPage::find_key_for_reserve. Faithful to the source,
including that the suffix comparison reads `get_record(offsets_[i])`. -/
def findKeyForReserveAux (p : MasstreeBorderPage) (slice : KeySlice) (suffix : Nat → Nat)
    (remaining : Nat) : Nat → Nat → FindKeyForReserveResult
  | _, 0 => ⟨kMaxKeys, MatchType.kNotFound⟩
  | i, n + 1 =>
    if slice ≠ p.slices_ i then findKeyForReserveAux p slice suffix remaining (i + 1) n
    else if remaining ≤ 8 then
      if p.remaining_key_length_ i = remaining then ⟨i, MatchType.kExactMatchLocalRecord⟩
      else findKeyForReserveAux p slice suffix remaining (i + 1) n
    else if p.does_point_to_layer i then ⟨i, MatchType.kExactMatchLayerPointer⟩
    else if p.remaining_key_length_ i ≤ 8 then
      findKeyForReserveAux p slice suffix remaining (i + 1) n
    else if p.remaining_key_length_ i = remaining ∧
        bytesEq (p.get_record (p.offsets_ i)) suffix (remaining - 8) = true then
      ⟨i, MatchType.kExactMatchLocalRecord⟩
    else ⟨i, MatchType.kConflictingLocalRecord⟩

/-- MasstreeBorderPage::find_key_for_reserve: scans slots `from_index` to `to_index`
and classifies the outcome for a subsequent slot reservation. -/
def MasstreeBorderPage.find_key_for_reserve (p : MasstreeBorderPage)
    (from_index to_index : Nat) (slice : KeySlice) (suffix : Nat → Nat)
    (remaining : Nat) : FindKeyForReserveResult :=
  findKeyForReserveAux p slice suffix remaining from_index (to_index - from_index)

/-- MasstreeBorderPage::calculate_suffix_length:
`remaining_length >= 8 ? remaining_length - 8 : 0`. -/
def calculate_suffix_length (remaining_length : Nat) : Nat :=
  if 8 ≤ remaining_length then remaining_length - 8 else 0

/-- Modelled from the spec: 16-byte alignment of a record size, the smallest multiple of
16 that is at least the argument (`assorted::align16` is not under src/; the spec says
the record is the 16-byte-aligned `suffix_length + payload_count`). -/
def align16 (x : Nat) : Nat := 16 * ((x + 15) / 16)

/-- MasstreeBorderPage::calculate_record_size:
`align16(suffix_length + payload_count)` truncated to the `uint16_t` return type. -/
def calculate_record_size (remaining_length payload_count : Nat) : Nat :=
  align16 (calculate_suffix_length remaining_length + payload_count) % 65536

/-- MasstreeBorderPage::can_accomodate: index 0 always fits (the data region is empty);
otherwise the 16-byte-aligned record size must be at most the previous slot's heap
offset `offsets_[new_index - 1] << 4`. -/
def MasstreeBorderPage.can_accomodate (p : MasstreeBorderPage)
    (new_index remaining_length payload_count : Nat) : Bool :=
  if new_index = 0 then true
  else decide (calculate_record_size remaining_length payload_count ≤
    16 * p.offsets_ (new_index - 1))

/-- Unsigned 8-bit subtraction (the `DataOffset` arithmetic of
`previous_offset - record_size`). -/
def sub_u8 (a b : Nat) : Nat := (a % 256 + 256 - b % 256) % 256

/-- MasstreeBorderPage::reserve_record_space: installs slot metadata (slice, remaining
key length, payload length, heap offset, owner id) at `index` and copies the key suffix
into the newly reserved record-heap entry when `suffix_length > 0`. The payload bytes
are not written. -/
def MasstreeBorderPage.reserve_record_space (p : MasstreeBorderPage) (index : Nat)
    (initial_owner_id : Nat) (slice : KeySlice) (suffix : Nat → Nat)
    (remaining_length payload_count : Nat) : MasstreeBorderPage :=
  let suffix_length := calculate_suffix_length remaining_length
  let record_size := (calculate_record_size remaining_length payload_count / 16) % 256
  let previous_offset := if index = 0 then kDataSize / 16 else p.offsets_ (index - 1)
  let new_offset := sub_u8 previous_offset record_size
  { p with
    slices_ := upd p.slices_ index slice
    remaining_key_length_ := upd p.remaining_key_length_ index remaining_length
    payload_length_ := upd p.payload_length_ index payload_count
    offsets_ := upd p.offsets_ index new_offset
    owner_ids_ := upd p.owner_ids_ index initial_owner_id
    data_ := fun k =>
      if 16 * new_offset ≤ k ∧ k < 16 * new_offset + suffix_length then
        suffix (k - 16 * new_offset)
      else p.data_ k }

/-- MasstreeBorderPage::set_next_layer: morphs the record at `index` (which must hold a
key longer than one slice) into a next-layer pointer: the remaining key length becomes
`kKeyLengthNextLayer` and the 16-byte record-heap entry is overwritten with the dual
page pointer (modelled as 16 opaque bytes). -/
def MasstreeBorderPage.set_next_layer (p : MasstreeBorderPage) (index : Nat)
    (pointer : Nat → Nat) : MasstreeBorderPage :=
  { p with
    remaining_key_length_ := upd p.remaining_key_length_ index kKeyLengthNextLayer
    data_ := fun k =>
      if 16 * p.offsets_ index ≤ k ∧ k < 16 * p.offsets_ index + 16 then
        pointer (k - 16 * p.offsets_ index)
      else p.data_ k }

/-- A quiescent version word with all bits clear and zero counts. -/
def emptyVersion : MasstreePageVersion :=
  ⟨false, false, false, false, false, false, 0, 0, 0⟩

/-- Modelled from the spec: a freshly initialized volatile border page of layer 0 (zero
key count, all metadata and data bytes zero, full-range fences;
`initialize_volatile_page` is declared but not defined under src/). -/
def emptyBorder : MasstreeBorderPage :=
  { snapshot_ := false
    low_fence_ := 0
    high_fence_ := 2 ^ 64 - 1
    in_layer_parent_ := 0
    page_version_ := emptyVersion
    remaining_key_length_ := fun _ => 0
    slices_ := fun _ => 0
    offsets_ := fun _ => 0
    payload_length_ := fun _ => 0
    owner_ids_ := fun _ => 0
    data_ := fun _ => 0 }

/-- A one-byte key suffix: every byte is 88 (ASCII capital X). -/
def suffix88 : Nat → Nat := fun _ => 88

/-- A key suffix of a different byte value: every byte is 89 (ASCII capital Y). -/
def suffix89 : Nat → Nat := fun _ => 89

/-- A page whose first slot's record-heap offset is 100 (units of 16 bytes). -/
def CX3page : MasstreeBorderPage :=
  { emptyBorder with offsets_ := fun j => if j = 0 then 100 else 0 }

/-- The border page obtained by reserving, on an empty page, slot 0 for a key with
slice 5, remaining length 9 (one suffix byte 88) and payload count 1983; its record
lands at heap offset 48. -/
def C1page : MasstreeBorderPage := emptyBorder.reserve_record_space 0 7 5 suffix88 9 1983

/-- A page with one reserved record at slot 0 and a version word showing locked,
inserting and key count 2, ready for reserving slot 1. -/
def C4page : MasstreeBorderPage :=
  { emptyBorder.reserve_record_space 0 7 5 suffix88 9 0 with
    page_version_ := ⟨true, true, false, false, false, false, 0, 2, 0⟩ }

/-- Modelled from the spec: the insert-into-border system sub-transaction of section
4.3 as driven by the insert path (the caller `masstree_storage_pimpl.cpp` is not under
src/): lock the page, set the inserting bit, increment the key count, reserve the
record space at the new last slot, unlock. -/
def insert_new_record (p : MasstreeBorderPage) (owner slice : Nat) (suffix : Nat → Nat)
    (remaining payload : Nat) : MasstreeBorderPage :=
  let kc := p.page_version_.key_count
  let v2 := { lock_version p.page_version_ with inserting := true, key_count := kc + 1 }
  let p2 := MasstreeBorderPage.reserve_record_space
    { p with page_version_ := v2 } kc owner slice suffix remaining payload
  { p2 with page_version_ := unlock_version p2.page_version_ }

/-- Modelled from the spec: border-page states reachable from a freshly initialized
page by the insert sub-transaction of sections 4.3 (the re-scan under the lock must
report kNotFound and the record must fit) and by the next-layer promotion of section
4.4, which morphs an existing record whose key extends beyond the slice into a
next-layer pointer. -/
inductive ReachableBorder : MasstreeBorderPage → Prop where
  | empty : ReachableBorder emptyBorder
  | insert (p : MasstreeBorderPage) (owner slice : Nat) (suffix : Nat → Nat)
      (remaining payload : Nat) (hreach : ReachableBorder p)
      (hkc : p.page_version_.key_count < kMaxKeys)
      (hrem : remaining ≤ kKeyLengthMax)
      (hscan : p.find_key_for_reserve 0 p.page_version_.key_count slice suffix
        remaining = ⟨kMaxKeys, MatchType.kNotFound⟩)
      (hacc : p.can_accomodate p.page_version_.key_count remaining payload = true) :
      ReachableBorder (insert_new_record p owner slice suffix remaining payload)
  | promote (p : MasstreeBorderPage) (index : Nat) (pointer : Nat → Nat)
      (hreach : ReachableBorder p)
      (hidx : index < p.page_version_.key_count)
      (hlong : 8 < p.remaining_key_length_ index) :
      ReachableBorder (p.set_next_layer index pointer)

/-- The slots of a border page (below the version word's key count) holding the given
slice. -/
def sliceSlots (p : MasstreeBorderPage) (s : KeySlice) : Finset Nat :=
  (Finset.range p.page_version_.key_count).filter fun i => p.slices_ i = s

/-- The slots holding the given slice whose remaining key length exceeds one slice
(including next-layer pointers, whose marker 255 exceeds 8). -/
def longSlots (p : MasstreeBorderPage) (s : KeySlice) : Finset Nat :=
  (sliceSlots p s).filter fun i => 8 < p.remaining_key_length_ i

/-- Pairwise slot discipline of a border page: two distinct visible slots with the
same slice are never both longer than one slice, and a slot of length at most 8 never
shares its length with another slot of the same slice. -/
def SliceInv (p : MasstreeBorderPage) : Prop :=
  ∀ i j, i < p.page_version_.key_count → j < p.page_version_.key_count →
    p.slices_ i = p.slices_ j → i ≠ j →
    (¬ (8 < p.remaining_key_length_ i ∧ 8 < p.remaining_key_length_ j)) ∧
    (p.remaining_key_length_ i ≤ 8 →
      p.remaining_key_length_ i ≠ p.remaining_key_length_ j)

/-- A reachable border page with four slots all holding slice 5: remaining lengths
3, 4, 5 and one 9-byte key with a stored suffix. -/
def CX2page : MasstreeBorderPage :=
  insert_new_record (insert_new_record (insert_new_record
    (insert_new_record emptyBorder 7 5 suffix88 3 0) 7 5 suffix88 4 0)
    7 5 suffix88 5 0) 7 5 suffix88 9 0

/-- The infimum slice: the smallest slice value of a layer. -/
abbrev kInfimumSlice : Nat := 0

/-- The supremum slice: the largest slice value of a layer. -/
abbrev kSupremumSlice : Nat := 2 ^ 64 - 1

/-- A range-lock read-set entry: the observed gap between neighboring slots, as the
pair of its bounding slices (section 6; the page and observed version are omitted from
the model). -/
structure RangeLockEntry where
  low_slice : KeySlice
  high_slice : KeySlice
deriving DecidableEq

/-- Result of the modelled MasstreeStorage::get_record: the error code together with
the data it carries (the copied payload, the in-out payload capacity, or the
range-lock read-set entry recorded on a miss). -/
inductive GetRecordResult where
  | kErrorCodeOk (payload : List Nat) (payload_capacity : Nat)
  | kErrorCodeStrTooSmallPayloadBuffer (payload_capacity : Nat)
  | kErrorCodeStrKeyNotFound (range_lock : RangeLockEntry)
deriving DecidableEq

/-- Association-list lookup of a record by its key slice. -/
def lookupSlice : List (KeySlice × List Nat) → KeySlice → Option (List Nat)
  | [], _ => none
  | (s, pl) :: rest, key => if s = key then some pl else lookupSlice rest key

/-- The lower neighbor of a missing key: the largest stored slice below it, or the
infimum slice when none exists. -/
def gapLow (recs : List (KeySlice × List Nat)) (key : KeySlice) : KeySlice :=
  ((recs.map Prod.fst).filter fun s => decide (s < key)).foldr max kInfimumSlice

/-- The upper neighbor of a missing key: the smallest stored slice above it, or the
supremum slice when none exists. -/
def gapHigh (recs : List (KeySlice × List Nat)) (key : KeySlice) : KeySlice :=
  ((recs.map Prod.fst).filter fun s => decide (key < s)).foldr min kSupremumSlice

/-- Modelled from the spec: MasstreeStorage::get_record (only declared under src/; the
implementation is not). The index content is abstracted to an association list from
key slices to payloads. If the key is present and the caller's capacity is smaller
than the payload, return kErrorCodeStrTooSmallPayloadBuffer with the required length
in the capacity; if present and the capacity suffices, copy the payload out and set
the capacity to the actual length; if absent, return kErrorCodeStrKeyNotFound with a
range-lock read-set entry covering the gap between the neighboring slots. -/
def mt_get_record (recs : List (KeySlice × List Nat)) (key : KeySlice)
    (payload_capacity : Nat) : GetRecordResult :=
  match lookupSlice recs key with
  | some payload =>
    if payload_capacity < payload.length then
      GetRecordResult.kErrorCodeStrTooSmallPayloadBuffer payload.length
    else GetRecordResult.kErrorCodeOk payload payload.length
  | none => GetRecordResult.kErrorCodeStrKeyNotFound ⟨gapLow recs key, gapHigh recs key⟩

/-- Modelled from the spec: one layer of the Masstree as a tree of pages (section 3).
A border page holds its slices; an intermediate page holds a first child and a list of
separator-and-child pairs (the spec's two-level mini-page fan-out is flattened into
one separator list, which does not affect the fence discipline). -/
inductive MTree where
  | border (slices : List KeySlice)
  | inter (first : MTree) (rest : List (KeySlice × MTree))

mutual

/-- All slices stored in the pages of a tree. -/
def storedSlices : MTree → List KeySlice
  | .border slices => slices
  | .inter c rest => storedSlices c ++ storedSeq rest

/-- All slices stored under a list of separator-and-child pairs. -/
def storedSeq : List (KeySlice × MTree) → List KeySlice
  | [] => []
  | (_, c) :: rest => storedSlices c ++ storedSeq rest

end

mutual

/-- Modelled from the spec: the fence discipline of section 3 and invariant 1 of
section 8. A page is well-fenced in the window from lo (inclusive) to hi (exclusive)
when every slice it stores lies in the window and its children are well-fenced in the
sub-windows cut by the separators. -/
def WfIn (lo hi : Nat) : MTree → Prop
  | .border slices => ∀ s ∈ slices, lo ≤ s ∧ s < hi
  | .inter c rest => WfSeq lo hi c rest
termination_by t => sizeOf t

/-- The children after a given child are well-fenced: each separator lies in the
window and cuts it into the child's window and the remainder. -/
def WfSeq (lo hi : Nat) (c : MTree) : List (KeySlice × MTree) → Prop
  | [] => WfIn lo hi c
  | (sep, c2) :: rest => lo ≤ sep ∧ sep ≤ hi ∧ WfIn lo sep c ∧ WfSeq sep hi c2 rest
termination_by rest => sizeOf c + sizeOf rest

end

mutual

/-- Modelled from the spec: the descent of section 4.2 followed by the slot insertion
of section 4.3, at the slice level: walk to the child whose fence window contains the
slice and add the slice to the reached border page. -/
def insertSlice (s : KeySlice) : MTree → MTree
  | .border slices => .border (s :: slices)
  | .inter c rest =>
    let r := insertSeq s c rest
    .inter r.1 r.2
termination_by t => sizeOf t

/-- Descend into the child list: take the first child while the slice is below the
separator, otherwise walk right. -/
def insertSeq (s : KeySlice) (c : MTree) :
    List (KeySlice × MTree) → MTree × List (KeySlice × MTree)
  | [] => (insertSlice s c, [])
  | (sep, c2) :: rest =>
    if s < sep then (insertSlice s c, (sep, c2) :: rest)
    else
      let r := insertSeq s c2 rest
      (c, (sep, r.1) :: r.2)
termination_by rest => sizeOf c + sizeOf rest

end

/-- Modelled from the spec: the border split of section 4.4 at the slice level: the
page keeps the slices below the split slice with its high fence narrowed to it, and a
foster sibling with the window from the split slice to the old high fence receives
the rest. -/
def split_border (m : KeySlice) (slices : List KeySlice) : MTree :=
  MTree.inter (.border (slices.filter fun s => decide (s < m)))
    [(m, .border (slices.filter fun s => decide (¬ s < m)))]

/-- The separator scan starting at `i` over `n` separators returns an index between `i`
and `i + n`, every separator it skipped is at most the slice, and if it stops early the
separator at the result exceeds the slice. -/
theorem findSepAux_spec (sep : Nat → KeySlice) (slice : KeySlice) :
    ∀ n i, i ≤ findSepAux sep slice i n ∧ findSepAux sep slice i n ≤ i + n ∧
      (∀ j, i ≤ j → j < findSepAux sep slice i n → sep j ≤ slice) ∧
      (findSepAux sep slice i n < i + n → slice < sep (findSepAux sep slice i n)) := by
  intro n
  induction n with
  | zero =>
    intro i
    refine ⟨le_refl i, by simp [findSepAux], ?_, ?_⟩
    · simp only [findSepAux]
      omega
    · simp only [findSepAux]
      omega
  | succ n ih =>
    intro i
    by_cases h : slice < sep i
    · simp only [findSepAux, if_pos h]
      exact ⟨le_refl i, by omega, fun j hij hji => by omega, fun _ => h⟩
    · simp only [findSepAux, if_neg h]
      obtain ⟨h1, h2, h3, h4⟩ := ih (i + 1)
      refine ⟨by omega, by omega, ?_, fun hl => h4 (by omega)⟩
      intro j hij hjr
      rcases Nat.eq_or_lt_of_le hij with rfl | hlt
      · exact Nat.le_of_not_lt h
      · exact h3 j hlt hjr

/-- C5: find_minipage and MiniPage::find_pointer return the smallest index whose
separator strictly exceeds the searching slice, and the separator count when no
separator exceeds it; hence the chosen index is bounded by the count, all separators
before it are at most the slice (in particular the one just before it), and the
separator at the index, when it exists, exceeds the slice. -/
theorem find_minipage_find_pointer_least_index
    (p : MasstreeIntermediatePage) (m : MiniPage) (stablep stablem : MasstreePageVersion)
    (slice : KeySlice)
    (hsep : stablep.key_count ≤ kMaxIntermediateSeparators)
    (hmsep : stablem.key_count ≤ kMaxIntermediateMiniSeparators) :
    (p.find_minipage stablep slice ≤ stablep.key_count ∧
      (∀ j < p.find_minipage stablep slice, p.separators_ j ≤ slice) ∧
      (p.find_minipage stablep slice < stablep.key_count →
        slice < p.separators_ (p.find_minipage stablep slice)) ∧
      (0 < p.find_minipage stablep slice →
        p.separators_ (p.find_minipage stablep slice - 1) ≤ slice)) ∧
    (m.find_pointer stablem slice ≤ stablem.key_count ∧
      (∀ j < m.find_pointer stablem slice, m.separators_ j ≤ slice) ∧
      (m.find_pointer stablem slice < stablem.key_count →
        slice < m.separators_ (m.find_pointer stablem slice)) ∧
      (0 < m.find_pointer stablem slice →
        m.separators_ (m.find_pointer stablem slice - 1) ≤ slice)) := by
  simp only [MasstreeIntermediatePage.find_minipage, MiniPage.find_pointer]
  obtain ⟨h1, h2, h3, h4⟩ := findSepAux_spec p.separators_ slice stablep.key_count 0
  obtain ⟨g1, g2, g3, g4⟩ := findSepAux_spec m.separators_ slice stablem.key_count 0
  refine ⟨⟨by omega, ?_, ?_, ?_⟩, ⟨by omega, ?_, ?_, ?_⟩⟩
  · exact fun j hj => h3 j (Nat.zero_le j) hj
  · exact fun h => h4 (by omega)
  · intro h0
    exact h3 _ (Nat.zero_le _) (by omega)
  · exact fun j hj => g3 j (Nat.zero_le j) hj
  · exact fun h => g4 (by omega)
  · intro g0
    exact g3 _ (Nat.zero_le _) (by omega)

/-- Witness for the C5 theorem at a concrete intermediate page and mini-page. -/
theorem find_minipage_find_pointer_least_index_witness :
    let p : MasstreeIntermediatePage :=
      { snapshot_ := false, low_fence_ := 0, high_fence_ := 2 ^ 64 - 1
        in_layer_parent_ := 0, page_version_ := { emptyVersion with key_count := 2 }
        separators_ := fun j => 10 * (j + 1)
        mini_pages_ := fun _ => ⟨emptyVersion, fun _ => 0, fun _ => 0⟩ }
    let m : MiniPage := ⟨{ emptyVersion with key_count := 3 }, fun j => 100 * (j + 1), fun _ => 0⟩
    p.find_minipage { emptyVersion with key_count := 2 } 15 ≤ 2 ∧
      (p.find_minipage { emptyVersion with key_count := 2 } 15 < 2 →
        15 < p.separators_ (p.find_minipage { emptyVersion with key_count := 2 } 15)) ∧
      m.find_pointer { emptyVersion with key_count := 3 } 15 ≤ 3 := by
  intro p m
  obtain ⟨⟨h1, _, h3, _⟩, ⟨g1, _, _, _⟩⟩ :=
    find_minipage_find_pointer_least_index p m
      { emptyVersion with key_count := 2 } { emptyVersion with key_count := 3 } 15
      (by decide) (by decide)
  exact ⟨h1, h3, g1⟩

/-- The find_key scan loop returns the not-found sentinel or an index among the
scanned slots. -/
theorem findKeyAux_bound (p : MasstreeBorderPage) (slice : KeySlice) (suffix : Nat → Nat)
    (remaining : Nat) :
    ∀ n i, findKeyAux p slice suffix remaining i n = kMaxKeys ∨
      (i ≤ findKeyAux p slice suffix remaining i n ∧
        findKeyAux p slice suffix remaining i n < i + n) := by
  intro n
  induction n with
  | zero =>
    intro i
    left
    rfl
  | succ n ih =>
    intro i
    have hrec := ih (i + 1)
    simp only [findKeyAux]
    by_cases h1 : slice ≠ p.slices_ i
    · simp only [if_pos h1]
      rcases hrec with h | h
      · exact Or.inl h
      · exact Or.inr ⟨by omega, by omega⟩
    · simp only [if_neg h1]
      by_cases h2 : remaining ≤ 8
      · simp only [if_pos h2]
        by_cases h3 : p.remaining_key_length_ i = remaining
        · simp only [if_pos h3]
          exact Or.inr ⟨le_refl i, by omega⟩
        · simp only [if_neg h3]
          rcases hrec with h | h
          · exact Or.inl h
          · exact Or.inr ⟨by omega, by omega⟩
      · simp only [if_neg h2]
        by_cases h3 : p.does_point_to_layer i
        · simp only [if_pos h3]
          exact Or.inr ⟨le_refl i, by omega⟩
        · simp only [if_neg h3]
          by_cases h4 : p.remaining_key_length_ i = remaining ∧
              bytesEq (p.get_record (p.offsets_ i)) suffix (remaining - 8) = true
          · simp only [if_pos h4]
            exact Or.inr ⟨le_refl i, by omega⟩
          · simp only [if_neg h4]
            by_cases h5 : 8 < p.remaining_key_length_ i
            · simp only [if_pos h5]
              exact Or.inl trivial
            · simp only [if_neg h5]
              rcases hrec with h | h
              · exact Or.inl h
              · exact Or.inr ⟨by omega, by omega⟩

/-- The find_key_normalized scan loop returns the not-found sentinel or an index among
the scanned slots. -/
theorem findKeyNormAux_bound (p : MasstreeBorderPage) (slice : KeySlice) :
    ∀ n i, findKeyNormAux p slice i n = kMaxKeys ∨
      (i ≤ findKeyNormAux p slice i n ∧ findKeyNormAux p slice i n < i + n) := by
  intro n
  induction n with
  | zero =>
    intro i
    left
    rfl
  | succ n ih =>
    intro i
    simp only [findKeyNormAux]
    by_cases h1 : slice = p.slices_ i ∧ p.remaining_key_length_ i = 8
    · simp only [if_pos h1]
      exact Or.inr ⟨le_refl i, by omega⟩
    · simp only [if_neg h1]
      rcases ih (i + 1) with h | h
      · exact Or.inl h
      · exact Or.inr ⟨by omega, by omega⟩

/-- The find_key_for_reserve scan loop returns the not-found sentinel or an index among
the scanned slots. -/
theorem findKeyForReserveAux_bound (p : MasstreeBorderPage) (slice : KeySlice)
    (suffix : Nat → Nat) (remaining : Nat) :
    ∀ n i, (findKeyForReserveAux p slice suffix remaining i n).index_ = kMaxKeys ∨
      (i ≤ (findKeyForReserveAux p slice suffix remaining i n).index_ ∧
        (findKeyForReserveAux p slice suffix remaining i n).index_ < i + n) := by
  intro n
  induction n with
  | zero =>
    intro i
    left
    rfl
  | succ n ih =>
    intro i
    have hrec := ih (i + 1)
    simp only [findKeyForReserveAux]
    by_cases h1 : slice ≠ p.slices_ i
    · simp only [if_pos h1]
      rcases hrec with h | h
      · exact Or.inl h
      · exact Or.inr ⟨by omega, by omega⟩
    · simp only [if_neg h1]
      by_cases h2 : remaining ≤ 8
      · simp only [if_pos h2]
        by_cases h3 : p.remaining_key_length_ i = remaining
        · simp only [if_pos h3]
          exact Or.inr ⟨le_refl i, by omega⟩
        · simp only [if_neg h3]
          rcases hrec with h | h
          · exact Or.inl h
          · exact Or.inr ⟨by omega, by omega⟩
      · simp only [if_neg h2]
        by_cases h3 : p.does_point_to_layer i
        · simp only [if_pos h3]
          exact Or.inr ⟨le_refl i, by omega⟩
        · simp only [if_neg h3]
          by_cases h4 : p.remaining_key_length_ i ≤ 8
          · simp only [if_pos h4]
            rcases hrec with h | h
            · exact Or.inl h
            · exact Or.inr ⟨by omega, by omega⟩
          · simp only [if_neg h4]
            by_cases h5 : p.remaining_key_length_ i = remaining ∧
                bytesEq (p.get_record (p.offsets_ i)) suffix (remaining - 8) = true
            · simp only [if_pos h5]
              exact Or.inr ⟨le_refl i, by omega⟩
            · simp only [if_neg h5]
              exact Or.inr ⟨le_refl i, by omega⟩

/-- C9: every index returned by find_key, find_key_normalized and find_key_for_reserve
is either the not-found sentinel kMaxKeys = 64 or strictly below the scanned key count
(respectively the to_index argument), each of which is at most 64. -/
theorem find_key_results_bounded (p : MasstreeBorderPage) (stable : MasstreePageVersion)
    (slice : KeySlice) (suffix : Nat → Nat) (remaining : Nat)
    (from_index to_index : Nat)
    (hkc : stable.key_count ≤ kMaxKeys)
    (hto : to_index ≤ kMaxKeys)
    (hfrom : from_index ≤ to_index) :
    (p.find_key stable slice suffix remaining = kMaxKeys ∨
      p.find_key stable slice suffix remaining < stable.key_count) ∧
    (p.find_key_normalized from_index to_index slice = kMaxKeys ∨
      p.find_key_normalized from_index to_index slice < to_index) ∧
    ((p.find_key_for_reserve from_index to_index slice suffix remaining).index_ = kMaxKeys ∨
      (p.find_key_for_reserve from_index to_index slice suffix remaining).index_ <
        to_index) := by
  refine ⟨?_, ?_, ?_⟩
  · rcases findKeyAux_bound p slice suffix remaining stable.key_count 0 with h | h
    · exact Or.inl h
    · exact Or.inr (by simpa [MasstreeBorderPage.find_key] using h.2)
  · rcases findKeyNormAux_bound p slice (to_index - from_index) from_index with h | h
    · exact Or.inl h
    · refine Or.inr ?_
      have := h.2
      simp only [MasstreeBorderPage.find_key_normalized]
      omega
  · rcases findKeyForReserveAux_bound p slice suffix remaining (to_index - from_index)
        from_index with h | h
    · exact Or.inl h
    · refine Or.inr ?_
      have := h.2
      simp only [MasstreeBorderPage.find_key_for_reserve]
      omega

/-- Witness for the C9 theorem at a concrete page: the scan over one zero-initialized
slot misses slice 5 in all three search functions. -/
theorem find_key_results_bounded_witness :
    (emptyBorder.find_key { emptyVersion with key_count := 1 } 5 suffix88 3 = kMaxKeys ∨
      emptyBorder.find_key { emptyVersion with key_count := 1 } 5 suffix88 3 < 1) ∧
    (emptyBorder.find_key_normalized 0 1 5 = kMaxKeys ∨
      emptyBorder.find_key_normalized 0 1 5 < 1) ∧
    ((emptyBorder.find_key_for_reserve 0 1 5 suffix88 3).index_ = kMaxKeys ∨
      (emptyBorder.find_key_for_reserve 0 1 5 suffix88 3).index_ < 1) :=
  find_key_results_bounded emptyBorder { emptyVersion with key_count := 1 } 5 suffix88 3
    0 1 (by decide) (by decide) (by decide)

/-- C10: on a page whose header marks it as a snapshot page, lock and unlock are
identities on the whole page state; on a volatile page they apply the version-word
lock and unlock protocol. -/
theorem snapshot_lock_unlock_noop (p q : MasstreePage)
    (hp : p.snapshot_ = true) (hq : q.snapshot_ = false) :
    p.lock = p ∧ p.unlock = p ∧
    q.lock = { q with page_version_ := lock_version q.page_version_ } ∧
    q.unlock = { q with page_version_ := unlock_version q.page_version_ } := by
  simp [MasstreePage.lock, MasstreePage.unlock, hp, hq]

/-- Witness for the C10 theorem at concrete snapshot and volatile pages. -/
theorem snapshot_lock_unlock_noop_witness :
    let ps : MasstreePage := ⟨true, 0, 100, 0, emptyVersion⟩
    let qv : MasstreePage := ⟨false, 0, 100, 0, emptyVersion⟩
    ps.lock = ps ∧ ps.unlock = ps ∧
      qv.lock = { qv with page_version_ := lock_version qv.page_version_ } ∧
      qv.unlock = { qv with page_version_ := unlock_version qv.page_version_ } :=
  snapshot_lock_unlock_noop ⟨true, 0, 100, 0, emptyVersion⟩ ⟨false, 0, 100, 0, emptyVersion⟩
    rfl rfl

/-- C3 counterexample: with remaining length 254 and payload count 65535 the 16-bit
record size wraps around (align16 of 246 + 65535 is 65792, truncated to 256), so
can_accomodate answers true although the 16-byte-aligned record size does not fit
below the previous record's heap offset 16 * 100. -/
theorem can_accomodate_uint16_wrap_counterexample :
    CX3page.can_accomodate 1 254 65535 = true ∧
    ¬ (align16 (calculate_suffix_length 254 + 65535) ≤ 16 * CX3page.offsets_ 0) := by
  decide

/-- C3 (amended): for remaining length at most 254 and a payload count small enough
that the 16-bit record size does not wrap (suffix length + payload count at most
65520), can_accomodate returns true if and only if the new slot index is 0 or the
16-byte-aligned record size is at most the previous record's heap offset. -/
theorem can_accomodate_iff_fits (p : MasstreeBorderPage)
    (new_index remaining_length payload_count : Nat)
    (hrem : remaining_length ≤ kKeyLengthMax)
    (hnowrap : calculate_suffix_length remaining_length + payload_count ≤ 65520) :
    p.can_accomodate new_index remaining_length payload_count = true ↔
      (new_index = 0 ∨
        align16 (calculate_suffix_length remaining_length + payload_count) ≤
          16 * p.offsets_ (new_index - 1)) := by
  have hal : align16 (calculate_suffix_length remaining_length + payload_count) < 65536 := by
    unfold align16
    omega
  unfold MasstreeBorderPage.can_accomodate calculate_record_size
  rw [Nat.mod_eq_of_lt hal]
  by_cases h : new_index = 0
  · simp [h]
  · simp [h]

/-- Witness for the amended C3 theorem: a record of remaining length 9 and payload 10
fits below heap offset 100 at slot 1. -/
theorem can_accomodate_iff_fits_witness :
    CX3page.can_accomodate 1 9 10 = true ↔
      (1 = 0 ∨ align16 (calculate_suffix_length 9 + 10) ≤ 16 * CX3page.offsets_ 0) :=
  can_accomodate_iff_fits CX3page 1 9 10 (by decide) (by decide)

/-- C1: evaluation at the failing input. Slot 0 of `C1page` matches the searched slice
5 and remaining length 9 and is not a next-layer pointer, and the suffix stored in that
slot's record-heap entry (the bytes at `data_ + 16 * offsets_[0]`) equals the search
suffix, yet find_key returns kMaxKeys = 64 (not found): the code compares the suffix at
`get_record(offsets_[i])`, i.e. `data_ + 16 * offsets_[offsets_[i]]`, not at the slot's
own record `get_record(i)` where reserve_record_space stored it. -/
theorem find_key_reads_wrong_record_suffix :
    C1page.slices_ 0 = 5 ∧
    C1page.remaining_key_length_ 0 = 9 ∧
    C1page.does_point_to_layer 0 = false ∧
    bytesEq (C1page.get_record 0) suffix88 (9 - 8) = true ∧
    C1page.find_key { emptyVersion with key_count := 1 } 5 suffix88 9 = kMaxKeys := by
  decide

/-- Arithmetic facts about a record reserved under can_accomodate and the data-region
bound: the 16-bit record size does not wrap, it fits below the previous offset, and the
8-bit offset subtraction does not underflow. -/
theorem reserve_arith (p : MasstreeBorderPage) (index remaining payload : Nat)
    (hacc : p.can_accomodate index remaining payload = true)
    (hfit : calculate_suffix_length remaining + payload ≤ kDataSize)
    (hoff8 : index ≠ 0 → p.offsets_ (index - 1) < 256) :
    calculate_record_size remaining payload =
      align16 (calculate_suffix_length remaining + payload) ∧
    calculate_record_size remaining payload / 16 ≤
      (if index = 0 then kDataSize / 16 else p.offsets_ (index - 1)) ∧
    (if index = 0 then kDataSize / 16 else p.offsets_ (index - 1)) < 256 ∧
    sub_u8 (if index = 0 then kDataSize / 16 else p.offsets_ (index - 1))
        ((calculate_record_size remaining payload / 16) % 256) =
      (if index = 0 then kDataSize / 16 else p.offsets_ (index - 1)) -
        calculate_record_size remaining payload / 16 ∧
    calculate_suffix_length remaining ≤ calculate_record_size remaining payload ∧
    16 * (calculate_record_size remaining payload / 16) =
      calculate_record_size remaining payload := by
  have hds : kDataSize = 2752 := rfl
  have hfit2752 : calculate_suffix_length remaining + payload ≤ 2752 := by omega
  have hal : align16 (calculate_suffix_length remaining + payload) ≤ 2752 := by
    unfold align16
    omega
  have hrs : calculate_record_size remaining payload =
      align16 (calculate_suffix_length remaining + payload) := by
    unfold calculate_record_size
    exact Nat.mod_eq_of_lt (by omega)
  have hdvd : 16 * (calculate_record_size remaining payload / 16) =
      calculate_record_size remaining payload := by
    rw [hrs]
    unfold align16
    omega
  have hsle : calculate_suffix_length remaining ≤ calculate_record_size remaining payload := by
    rw [hrs]
    unfold align16
    omega
  by_cases h0 : index = 0
  · have hle : calculate_record_size remaining payload / 16 ≤ kDataSize / 16 := by
      rw [hrs]
      omega
    refine ⟨hrs, by simp [h0, hle], by simp [h0, hds], ?_, hsle, hdvd⟩
    simp only [h0, if_pos]
    unfold sub_u8
    have h172 : kDataSize / 16 = 172 := rfl
    omega
  · have hcan : calculate_record_size remaining payload ≤ 16 * p.offsets_ (index - 1) := by
      have := hacc
      unfold MasstreeBorderPage.can_accomodate at this
      rw [if_neg h0] at this
      exact of_decide_eq_true this
    have hle : calculate_record_size remaining payload / 16 ≤ p.offsets_ (index - 1) := by
      omega
    have h256 : p.offsets_ (index - 1) < 256 := hoff8 h0
    refine ⟨hrs, by simp [h0, hle], by simp [h0, h256], ?_, hsle, hdvd⟩
    simp only [if_neg h0]
    unfold sub_u8
    omega

/-- C4: under the asserted preconditions (page locked, inserting set, key count equal
to index + 1, remaining length at most 254, can_accomodate true, and the record
fitting in the data region), reserve_record_space stores exactly the given slice,
remaining key length, payload length and owner id at the slot, sets the slot's heap
offset to the previous offset (the data-region end for index 0) minus the 16-byte
units of the aligned record size, copies the suffix bytes into the slot's record-heap
entry when the remaining length exceeds 8, and writes no byte outside the suffix
range (in particular no payload byte). -/
theorem reserve_record_space_post (p : MasstreeBorderPage) (index owner : Nat)
    (slice : KeySlice) (suffix : Nat → Nat) (remaining payload : Nat)
    (hlock : p.page_version_.locked = true)
    (hins : p.page_version_.inserting = true)
    (hkc : p.page_version_.key_count = index + 1)
    (hrem : remaining ≤ kKeyLengthMax)
    (hacc : p.can_accomodate index remaining payload = true)
    (hfit : calculate_suffix_length remaining + payload ≤ kDataSize)
    (hoff8 : index ≠ 0 → p.offsets_ (index - 1) < 256) :
    (p.reserve_record_space index owner slice suffix remaining payload).slices_ index =
      slice ∧
    (p.reserve_record_space index owner slice suffix remaining
      payload).remaining_key_length_ index = remaining ∧
    (p.reserve_record_space index owner slice suffix remaining payload).payload_length_
      index = payload ∧
    (p.reserve_record_space index owner slice suffix remaining payload).owner_ids_
      index = owner ∧
    (p.reserve_record_space index owner slice suffix remaining payload).offsets_ index =
      (if index = 0 then kDataSize / 16 else p.offsets_ (index - 1)) -
        calculate_record_size remaining payload / 16 ∧
    calculate_record_size remaining payload / 16 ≤
      (if index = 0 then kDataSize / 16 else p.offsets_ (index - 1)) ∧
    (8 < remaining → ∀ k, k < remaining - 8 →
      (p.reserve_record_space index owner slice suffix remaining payload).data_
        (16 * (p.reserve_record_space index owner slice suffix remaining
          payload).offsets_ index + k) = suffix k) ∧
    (∀ k, (k < 16 * (p.reserve_record_space index owner slice suffix remaining
        payload).offsets_ index ∨
        16 * (p.reserve_record_space index owner slice suffix remaining
          payload).offsets_ index + calculate_suffix_length remaining ≤ k) →
      (p.reserve_record_space index owner slice suffix remaining payload).data_ k =
        p.data_ k) := by
  obtain ⟨hrs, hle, h256, hsub, hsle, hdvd⟩ :=
    reserve_arith p index remaining payload hacc hfit hoff8
  simp only [MasstreeBorderPage.reserve_record_space, upd, eq_self_iff_true, if_true]
  rw [hsub]
  refine ⟨by simp, by simp, by simp, by simp, by simp, hle, ?_, ?_⟩
  · intro h8 k hk
    have h8le : (8 : Nat) ≤ remaining := by omega
    simp only [calculate_suffix_length, if_pos h8le]
    rw [if_pos (by constructor <;> omega)]
    congr 1
    omega
  · intro k hk
    rw [if_neg (by omega)]

/-- C4 counterexample: at payload count 65535 with remaining length 254 the 16-bit
record size wraps to 256, so can_accomodate passes (with the page locked, inserting,
key count 2), yet the stored heap offset 155 does not satisfy the claimed relation
with the 16-byte-aligned record size 65792: 16 times the new offset plus the aligned
record size is not 16 times the previous offset. -/
theorem reserve_record_space_wrap_counterexample :
    C4page.can_accomodate 1 254 65535 = true ∧
    C4page.page_version_.locked = true ∧
    C4page.page_version_.inserting = true ∧
    C4page.page_version_.key_count = 1 + 1 ∧
    (C4page.reserve_record_space 1 7 9 suffix88 254 65535).offsets_ 1 = 155 ∧
    ¬ (16 * (C4page.reserve_record_space 1 7 9 suffix88 254 65535).offsets_ 1 +
        align16 (calculate_suffix_length 254 + 65535) = 16 * C4page.offsets_ 0) := by
  decide

/-- Witness for the C4 theorem: reserving slot 1 of `C4page` for slice 9 stores the
slice there. -/
theorem reserve_record_space_post_witness :
    (C4page.reserve_record_space 1 7 9 suffix88 9 0).slices_ 1 = 9 :=
  (reserve_record_space_post C4page 1 7 9 suffix88 9 0 rfl rfl rfl (by decide)
    (by decide) (by decide) (fun _ => by decide)).1

/-- C8: reserve_record_space changes no metadata entry of any slot other than index,
changes no data byte outside the newly reserved record's suffix range, leaves every
byte from each earlier record's start upward unchanged (records grow from the tail of
the data region), and the new record's byte range, from 16 times the new offset up to
16 times the previous offset, lies strictly below the start of every earlier record. -/
theorem reserve_record_space_frame (p : MasstreeBorderPage) (index owner : Nat)
    (slice : KeySlice) (suffix : Nat → Nat) (remaining payload : Nat)
    (hrem : remaining ≤ kKeyLengthMax)
    (hacc : p.can_accomodate index remaining payload = true)
    (hfit : calculate_suffix_length remaining + payload ≤ kDataSize)
    (hoff8 : index ≠ 0 → p.offsets_ (index - 1) < 256)
    (hpack : ∀ j, j < index → p.offsets_ (index - 1) ≤ p.offsets_ j) :
    (∀ j, j ≠ index →
      (p.reserve_record_space index owner slice suffix remaining payload).slices_ j =
        p.slices_ j ∧
      (p.reserve_record_space index owner slice suffix remaining
        payload).remaining_key_length_ j = p.remaining_key_length_ j ∧
      (p.reserve_record_space index owner slice suffix remaining payload).offsets_ j =
        p.offsets_ j ∧
      (p.reserve_record_space index owner slice suffix remaining
        payload).payload_length_ j = p.payload_length_ j ∧
      (p.reserve_record_space index owner slice suffix remaining payload).owner_ids_ j =
        p.owner_ids_ j) ∧
    (∀ k, (k < 16 * (p.reserve_record_space index owner slice suffix remaining
        payload).offsets_ index ∨
        16 * (p.reserve_record_space index owner slice suffix remaining
          payload).offsets_ index + calculate_suffix_length remaining ≤ k) →
      (p.reserve_record_space index owner slice suffix remaining payload).data_ k =
        p.data_ k) ∧
    (∀ j, j < index → ∀ k, 16 * p.offsets_ j ≤ k →
      (p.reserve_record_space index owner slice suffix remaining payload).data_ k =
        p.data_ k) ∧
    (∀ j, j < index → ∀ k,
      16 * (p.reserve_record_space index owner slice suffix remaining payload).offsets_
        index ≤ k →
      k < 16 * (if index = 0 then kDataSize / 16 else p.offsets_ (index - 1)) →
      k < 16 * p.offsets_ j) := by
  obtain ⟨hrs, hle, h256, hsub, hsle, hdvd⟩ :=
    reserve_arith p index remaining payload hacc hfit hoff8
  simp only [MasstreeBorderPage.reserve_record_space, upd, eq_self_iff_true, if_true]
  rw [hsub]
  refine ⟨?_, ?_, ?_, ?_⟩
  · intro j hj
    simp [if_neg hj]
  · intro k hk
    rw [if_neg (by omega)]
  · intro j hj k hk
    have hidx : index ≠ 0 := by omega
    have hPj : (if index = 0 then kDataSize / 16 else p.offsets_ (index - 1)) ≤
        p.offsets_ j := by
      rw [if_neg hidx]
      exact hpack j hj
    rw [if_neg (by omega)]
  · intro j hj k hk1 hk2
    have hidx : index ≠ 0 := by omega
    have hPj : (if index = 0 then kDataSize / 16 else p.offsets_ (index - 1)) ≤
        p.offsets_ j := by
      rw [if_neg hidx]
      exact hpack j hj
    omega

/-- C8 counterexample: at payload count 65521 with remaining length 254 the 16-bit
record size wraps to 240, which is smaller than the 246-byte suffix; can_accomodate
passes, but the suffix copy overruns the reserved range and overwrites a byte of the
previously reserved record at slot 0 (the byte at 16 times slot 0's offset changes
from 88 to 89). -/
theorem reserve_record_space_overlap_counterexample :
    C4page.can_accomodate 1 254 65521 = true ∧
    C4page.data_ (16 * C4page.offsets_ 0) = 88 ∧
    (C4page.reserve_record_space 1 7 9 suffix89 254 65521).data_
      (16 * C4page.offsets_ 0) = 89 := by
  decide

/-- Witness for the C8 theorem: reserving slot 1 of `C4page` leaves slot 0's slice
unchanged. -/
theorem reserve_record_space_frame_witness :
    (C4page.reserve_record_space 1 7 9 suffix88 9 0).slices_ 0 = C4page.slices_ 0 :=
  ((reserve_record_space_frame C4page 1 7 9 suffix88 9 0 (by decide) (by decide)
    (by decide) (fun _ => by decide) (fun j hj => by interval_cases j <;> decide)).1
    0 (by decide)).1

/-- The insert sub-transaction updates the slice array at the old key count. -/
theorem insert_new_record_slices (p : MasstreeBorderPage) (owner slice : Nat)
    (suffix : Nat → Nat) (remaining payload : Nat) :
    (insert_new_record p owner slice suffix remaining payload).slices_ =
      upd p.slices_ p.page_version_.key_count slice := rfl

/-- The insert sub-transaction updates the key-length array at the old key count. -/
theorem insert_new_record_rkl (p : MasstreeBorderPage) (owner slice : Nat)
    (suffix : Nat → Nat) (remaining payload : Nat) :
    (insert_new_record p owner slice suffix remaining payload).remaining_key_length_ =
      upd p.remaining_key_length_ p.page_version_.key_count remaining := rfl

/-- The insert sub-transaction increments the key count by one. -/
theorem insert_new_record_key_count (p : MasstreeBorderPage) (owner slice : Nat)
    (suffix : Nat → Nat) (remaining payload : Nat) :
    (insert_new_record p owner slice suffix remaining
      payload).page_version_.key_count = p.page_version_.key_count + 1 := rfl

/-- When the find_key_for_reserve scan reports kNotFound, every scanned slot with the
searched slice has a different length than the search (for short searches) and is
short (for searches longer than one slice). -/
theorem findKeyForReserveAux_notfound (p : MasstreeBorderPage) (slice : KeySlice)
    (suffix : Nat → Nat) (remaining : Nat) :
    ∀ n i, findKeyForReserveAux p slice suffix remaining i n =
        ⟨kMaxKeys, MatchType.kNotFound⟩ →
      ∀ j, i ≤ j → j < i + n → p.slices_ j = slice →
        (remaining ≤ 8 → p.remaining_key_length_ j ≠ remaining) ∧
        (8 < remaining → p.remaining_key_length_ j ≤ 8) := by
  intro n
  induction n with
  | zero =>
    intro i _ j hij hji
    omega
  | succ n ih =>
    intro i hres j hij hji hsl
    rw [findKeyForReserveAux] at hres
    by_cases h1 : slice ≠ p.slices_ i
    · rw [if_pos h1] at hres
      rcases Nat.eq_or_lt_of_le hij with rfl | hlt
      · exact absurd hsl.symm h1
      · exact ih (i + 1) hres j hlt (by omega) hsl
    · rw [if_neg h1] at hres
      by_cases h2 : remaining ≤ 8
      · rw [if_pos h2] at hres
        by_cases h3 : p.remaining_key_length_ i = remaining
        · rw [if_pos h3] at hres
          simp at hres
        · rw [if_neg h3] at hres
          rcases Nat.eq_or_lt_of_le hij with rfl | hlt
          · exact ⟨fun _ => h3, fun h8 => absurd h2 (by omega)⟩
          · exact ih (i + 1) hres j hlt (by omega) hsl
      · rw [if_neg h2] at hres
        by_cases h3 : p.does_point_to_layer i
        · rw [if_pos h3] at hres
          simp at hres
        · rw [if_neg h3] at hres
          by_cases h4 : p.remaining_key_length_ i ≤ 8
          · rw [if_pos h4] at hres
            rcases Nat.eq_or_lt_of_le hij with rfl | hlt
            · exact ⟨fun hle => absurd hle h2, fun _ => h4⟩
            · exact ih (i + 1) hres j hlt (by omega) hsl
          · rw [if_neg h4] at hres
            by_cases h5 : p.remaining_key_length_ i = remaining ∧
                bytesEq (p.get_record (p.offsets_ i)) suffix (remaining - 8) = true
            · rw [if_pos h5] at hres
              simp at hres
            · rw [if_neg h5] at hres
              simp at hres

/-- The insert sub-transaction preserves the pairwise slot discipline when the
re-scan under the lock reported kNotFound. -/
theorem sliceInv_insert (p : MasstreeBorderPage) (owner slice : Nat)
    (suffix : Nat → Nat) (remaining payload : Nat)
    (hinv : SliceInv p)
    (hscan : p.find_key_for_reserve 0 p.page_version_.key_count slice suffix
      remaining = ⟨kMaxKeys, MatchType.kNotFound⟩) :
    SliceInv (insert_new_record p owner slice suffix remaining payload) := by
  have hscan2 := findKeyForReserveAux_notfound p slice suffix remaining
    p.page_version_.key_count 0 (by simpa [MasstreeBorderPage.find_key_for_reserve]
      using hscan)
  intro i j hi hj hsl hij
  rw [insert_new_record_key_count] at hi hj
  rw [insert_new_record_slices] at hsl
  rw [insert_new_record_rkl]
  set kc := p.page_version_.key_count with hkc
  have hat : ∀ (f : Nat → Nat) (v : Nat), upd f kc v kc = v := by
    intro f v
    simp [upd]
  have hne : ∀ (f : Nat → Nat) (v k : Nat), k ≠ kc → upd f kc v k = f k := by
    intro f v k hk
    simp [upd, hk]
  by_cases hikc : i = kc
  · have hjkc : j ≠ kc := by omega
    subst hikc
    rw [hat, hne _ _ _ hjkc] at hsl
    obtain ⟨hA, hB⟩ := hscan2 j (Nat.zero_le j) (by omega) hsl.symm
    constructor
    · intro hcon
      have h8j : 8 < p.remaining_key_length_ j := by
        have := hcon.2
        rwa [hne _ _ _ hjkc] at this
      have h8r : 8 < remaining := by
        have := hcon.1
        rwa [hat] at this
      have := hB h8r
      omega
    · intro hshort
      rw [hat] at hshort ⊢
      rw [hne _ _ _ hjkc]
      exact fun heq => hA hshort heq.symm
  · by_cases hjkc : j = kc
    · subst hjkc
      rw [hne _ _ _ hikc, hat] at hsl
      obtain ⟨hA, hB⟩ := hscan2 i (Nat.zero_le i) (by omega) hsl
      constructor
      · intro hcon
        have h8i : 8 < p.remaining_key_length_ i := by
          have := hcon.1
          rwa [hne _ _ _ hikc] at this
        have h8r : 8 < remaining := by
          have := hcon.2
          rwa [hat] at this
        have := hB h8r
        omega
      · intro hshort
        rw [hne _ _ _ hikc] at hshort ⊢
        rw [hat]
        intro heq
        by_cases h8 : remaining ≤ 8
        · exact hA h8 heq
        · have := hB (by omega)
          omega
    · rw [hne _ _ _ hikc, hne _ _ _ hjkc] at hsl
      obtain ⟨hA, hB⟩ := hinv i j (by omega) (by omega) hsl hij
      constructor
      · intro hcon
        refine hA ⟨?_, ?_⟩
        · have := hcon.1
          rwa [hne _ _ _ hikc] at this
        · have := hcon.2
          rwa [hne _ _ _ hjkc] at this
      · intro hshort
        rw [hne _ _ _ hikc] at hshort ⊢
        rw [hne _ _ _ hjkc]
        exact hB hshort

/-- Next-layer promotion preserves the pairwise slot discipline. -/
theorem sliceInv_set_next_layer (p : MasstreeBorderPage) (index : Nat)
    (pointer : Nat → Nat) (hinv : SliceInv p)
    (hlong : 8 < p.remaining_key_length_ index) :
    SliceInv (p.set_next_layer index pointer) := by
  intro i j hi hj hsl hij
  have hq_rkl : (p.set_next_layer index pointer).remaining_key_length_ =
      upd p.remaining_key_length_ index kKeyLengthNextLayer := rfl
  have hq_sl : (p.set_next_layer index pointer).slices_ = p.slices_ := rfl
  have hq_kc : (p.set_next_layer index pointer).page_version_.key_count =
      p.page_version_.key_count := rfl
  rw [hq_kc] at hi hj
  rw [hq_sl] at hsl
  rw [hq_rkl]
  obtain ⟨hA, hB⟩ := hinv i j hi hj hsl hij
  constructor
  · intro ⟨h8i, h8j⟩
    refine hA ⟨?_, ?_⟩
    · by_cases hii : i = index
      · exact hii ▸ hlong
      · simpa [upd, hii] using h8i
    · by_cases hjj : j = index
      · exact hjj ▸ hlong
      · simpa [upd, hjj] using h8j
  · intro hshort
    have h255 : kKeyLengthNextLayer = 255 := rfl
    by_cases hii : i = index
    · simp only [upd, if_pos hii] at hshort
      omega
    · simp only [upd, if_neg hii] at hshort ⊢
      by_cases hjj : j = index
      · simp only [if_pos hjj]
        omega
      · simp only [if_neg hjj]
        exact hB hshort

/-- Every reachable border page satisfies the pairwise slot discipline. -/
theorem reachable_sliceInv (p : MasstreeBorderPage) (h : ReachableBorder p) :
    SliceInv p := by
  induction h with
  | empty =>
    intro i j hi hj
    simp [emptyBorder, emptyVersion] at hi
  | insert p owner slice suffix remaining payload hreach hkc hrem hscan hacc ih =>
    exact sliceInv_insert p owner slice suffix remaining payload ih hscan
  | promote p index pointer hreach hidx hlong ih =>
    exact sliceInv_set_next_layer p index pointer ih hlong

/-- The pairwise slot discipline bounds the number of slots per slice by ten: at most
one long slot and at most nine short slots of distinct lengths 0 to 8. -/
theorem sliceInv_card (p : MasstreeBorderPage) (hinv : SliceInv p) (s : KeySlice) :
    (sliceSlots p s).card ≤ 10 ∧ (longSlots p s).card ≤ 1 := by
  have hmem : ∀ i ∈ sliceSlots p s, i < p.page_version_.key_count ∧ p.slices_ i = s := by
    intro i hi
    simpa [sliceSlots, Finset.mem_filter, Finset.mem_range] using hi
  have hlongcard : (longSlots p s).card ≤ 1 := by
    rw [Finset.card_le_one]
    intro a ha b hb
    simp only [longSlots, Finset.mem_filter] at ha hb
    obtain ⟨ha1, ha2⟩ := ha
    obtain ⟨hb1, hb2⟩ := hb
    obtain ⟨ha3, ha4⟩ := hmem a ha1
    obtain ⟨hb3, hb4⟩ := hmem b hb1
    by_contra hne
    exact (hinv a b ha3 hb3 (by rw [ha4, hb4]) hne).1 ⟨ha2, hb2⟩
  refine ⟨?_, hlongcard⟩
  have hshortcard : ((sliceSlots p s).filter
      fun i => ¬ 8 < p.remaining_key_length_ i).card ≤ 9 := by
    have hinj : Set.InjOn (fun i => p.remaining_key_length_ i)
        ((sliceSlots p s).filter fun i => ¬ 8 < p.remaining_key_length_ i) := by
      intro a ha b hb hab
      simp only [Finset.coe_filter, Set.mem_setOf_eq] at ha hb
      obtain ⟨ha1, ha2⟩ := ha
      obtain ⟨hb1, hb2⟩ := hb
      obtain ⟨ha3, ha4⟩ := hmem a ha1
      obtain ⟨hb3, hb4⟩ := hmem b hb1
      by_contra hne
      exact (hinv a b ha3 hb3 (by rw [ha4, hb4]) hne).2 (by omega) hab
    have hmaps : ∀ i ∈ (sliceSlots p s).filter
        (fun i => ¬ 8 < p.remaining_key_length_ i),
        p.remaining_key_length_ i ∈ Finset.range 9 := by
      intro i hi
      simp only [Finset.mem_filter] at hi
      simp only [Finset.mem_range]
      omega
    calc ((sliceSlots p s).filter fun i => ¬ 8 < p.remaining_key_length_ i).card
        ≤ (Finset.range 9).card := Finset.card_le_card_of_injOn _ hmaps hinj
      _ = 9 := by simp
  have hsplit := Finset.filter_card_add_filter_neg_card_eq_card
    (s := sliceSlots p s) (p := fun i => 8 < p.remaining_key_length_ i)
  have : (longSlots p s).card = ((sliceSlots p s).filter
      fun i => 8 < p.remaining_key_length_ i).card := rfl
  omega

/-- C2 counterexample: the reachable page `CX2page` has four slots with slice 5
(remaining lengths 3, 4, 5 and 9), so it is neither the case that every reachable
border page has at most two slots per slice, nor that a slot with remaining key
length above 8 is the only slot for its slice. -/
theorem border_two_slots_per_slice_counterexample :
    (¬ ∀ p : MasstreeBorderPage, ReachableBorder p → ∀ s : KeySlice,
        (sliceSlots p s).card ≤ 2) ∧
    (¬ ∀ p : MasstreeBorderPage, ReachableBorder p → ∀ s : KeySlice,
        0 < (longSlots p s).card → (sliceSlots p s).card ≤ 1) := by
  have h0 : ReachableBorder emptyBorder := ReachableBorder.empty
  have h1 := ReachableBorder.insert emptyBorder 7 5 suffix88 3 0 h0
    (by decide) (by decide) (by decide) (by decide)
  have h2 := ReachableBorder.insert _ 7 5 suffix88 4 0 h1
    (by decide) (by decide) (by decide) (by decide)
  have h3 := ReachableBorder.insert _ 7 5 suffix88 5 0 h2
    (by decide) (by decide) (by decide) (by decide)
  have h4 := ReachableBorder.insert _ 7 5 suffix88 9 0 h3
    (by decide) (by decide) (by decide) (by decide)
  have hslice : (sliceSlots CX2page 5).card = 4 := by decide
  have hlong : (longSlots CX2page 5).card = 1 := by decide
  constructor
  · intro hclaim
    have hcard := hclaim CX2page h4 5
    omega
  · intro hclaim
    have hcard := hclaim CX2page h4 5 (by omega)
    omega

/-- C2 (amended): every reachable border page has at most ten slots per slice (the
lengths 0 to 8 plus at most one slot longer than one slice or marked next-layer), and
at most one slot per slice has remaining key length above 8 (or the marker 255); such
a long slot can coexist with shorter slots of the same slice. -/
theorem border_at_most_ten_slots_per_slice (p : MasstreeBorderPage)
    (h : ReachableBorder p) (s : KeySlice) :
    (sliceSlots p s).card ≤ 10 ∧ (longSlots p s).card ≤ 1 :=
  sliceInv_card p (reachable_sliceInv p h) s

/-- Witness for the amended C2 theorem at the reachable page `CX2page`. -/
theorem border_at_most_ten_slots_per_slice_witness :
    (sliceSlots CX2page 5).card ≤ 10 ∧ (longSlots CX2page 5).card ≤ 1 :=
  border_at_most_ten_slots_per_slice CX2page
    (ReachableBorder.insert _ 7 5 suffix88 9 0
      (ReachableBorder.insert _ 7 5 suffix88 5 0
        (ReachableBorder.insert _ 7 5 suffix88 4 0
          (ReachableBorder.insert _ 7 5 suffix88 3 0 ReachableBorder.empty
            (by decide) (by decide) (by decide) (by decide))
          (by decide) (by decide) (by decide) (by decide))
        (by decide) (by decide) (by decide) (by decide))
      (by decide) (by decide) (by decide) (by decide)) 5

/-- Every member of a list is at most the max-fold of the list. -/
theorem le_foldr_max (b : Nat) : ∀ (l : List Nat), ∀ a ∈ l, a ≤ l.foldr max b := by
  intro l
  induction l with
  | nil =>
    intro a ha
    simp at ha
  | cons x xs ih =>
    intro a ha
    rcases List.mem_cons.mp ha with rfl | ha
    · exact le_max_left _ _
    · exact le_trans (ih a ha) (le_max_right _ _)

/-- The max-fold of a list is bounded by any bound of the base and the members. -/
theorem foldr_max_le (b c : Nat) (hb : b ≤ c) :
    ∀ (l : List Nat), (∀ a ∈ l, a ≤ c) → l.foldr max b ≤ c := by
  intro l
  induction l with
  | nil =>
    intro _
    simpa using hb
  | cons x xs ih =>
    intro h
    simp only [List.foldr_cons]
    exact max_le (h x (by simp)) (ih fun a ha => h a (by simp [ha]))

/-- The min-fold of a list is at most every member. -/
theorem foldr_min_le (b : Nat) : ∀ (l : List Nat), ∀ a ∈ l, l.foldr min b ≤ a := by
  intro l
  induction l with
  | nil =>
    intro a ha
    simp at ha
  | cons x xs ih =>
    intro a ha
    rcases List.mem_cons.mp ha with rfl | ha
    · exact min_le_left _ _
    · exact le_trans (min_le_right _ _) (ih a ha)

/-- The min-fold of a list exceeds any strict lower bound of the base and the
members. -/
theorem lt_foldr_min (b key : Nat) (hb : key < b) :
    ∀ (l : List Nat), (∀ a ∈ l, key < a) → key < l.foldr min b := by
  intro l
  induction l with
  | nil =>
    intro _
    simpa using hb
  | cons x xs ih =>
    intro h
    simp only [List.foldr_cons]
    exact lt_min (h x (by simp)) (ih fun a ha => h a (by simp [ha]))

/-- A failed lookup means no stored pair carries the key. -/
theorem lookupSlice_none : ∀ (recs : List (KeySlice × List Nat)) (key : KeySlice),
    lookupSlice recs key = none → ∀ sp ∈ recs, sp.1 ≠ key := by
  intro recs key
  induction recs with
  | nil =>
    intro _ sp hsp
    simp at hsp
  | cons r rest ih =>
    obtain ⟨s, pl⟩ := r
    intro h sp hsp
    rw [lookupSlice] at h
    by_cases hs : s = key
    · rw [if_pos hs] at h
      exact absurd h (by simp)
    · rw [if_neg hs] at h
      rcases List.mem_cons.mp hsp with rfl | hsp
      · exact hs
      · exact ih h sp hsp

/-- C6: the modelled get_record returns kErrorCodeStrTooSmallPayloadBuffer with the
required length when the caller's capacity is below the stored payload's length,
returns the copied payload and the actual length on success, and on a miss returns
kErrorCodeStrKeyNotFound with a range-lock read-set entry that covers the gap between
the neighboring slots: the searched key lies in the gap and no stored slice lies
strictly inside it. -/
theorem mt_get_record_spec (recs : List (KeySlice × List Nat)) (key : KeySlice)
    (payload_capacity : Nat) (hkey : key < kSupremumSlice) :
    (∀ payload, lookupSlice recs key = some payload →
      (payload_capacity < payload.length →
        mt_get_record recs key payload_capacity =
          GetRecordResult.kErrorCodeStrTooSmallPayloadBuffer payload.length) ∧
      (payload.length ≤ payload_capacity →
        mt_get_record recs key payload_capacity =
          GetRecordResult.kErrorCodeOk payload payload.length)) ∧
    (lookupSlice recs key = none →
      mt_get_record recs key payload_capacity =
        GetRecordResult.kErrorCodeStrKeyNotFound ⟨gapLow recs key, gapHigh recs key⟩ ∧
      gapLow recs key ≤ key ∧ key < gapHigh recs key ∧
      (∀ sp ∈ recs, sp.1 ≤ gapLow recs key ∨ gapHigh recs key ≤ sp.1)) := by
  constructor
  · intro payload hlook
    constructor
    · intro hlt
      rw [mt_get_record, hlook]
      simp only [if_pos hlt]
    · intro hge
      rw [mt_get_record, hlook]
      simp only [if_neg (by omega : ¬ payload_capacity < payload.length)]
  · intro hlook
    refine ⟨by rw [mt_get_record, hlook], ?_, ?_, ?_⟩
    · refine foldr_max_le kInfimumSlice key (Nat.zero_le key) _ ?_
      intro a ha
      obtain ⟨_, hdec⟩ := List.mem_filter.mp ha
      exact Nat.le_of_lt (of_decide_eq_true hdec)
    · refine lt_foldr_min kSupremumSlice key hkey _ ?_
      intro a ha
      obtain ⟨_, hdec⟩ := List.mem_filter.mp ha
      exact of_decide_eq_true hdec
    · intro sp hsp
      have hne := lookupSlice_none recs key hlook sp hsp
      rcases Nat.lt_trichotomy sp.1 key with hlt | heq | hgt
      · refine Or.inl (le_foldr_max kInfimumSlice _ sp.1 ?_)
        exact List.mem_filter.mpr ⟨List.mem_map.mpr ⟨sp, hsp, rfl⟩, decide_eq_true hlt⟩
      · exact absurd heq hne
      · refine Or.inr (foldr_min_le kSupremumSlice _ sp.1 ?_)
        exact List.mem_filter.mpr ⟨List.mem_map.mpr ⟨sp, hsp, rfl⟩, decide_eq_true hgt⟩

/-- Witness for the C6 theorem: looking up the missing key 15 among slices 10 and 20
with zero capacity yields kErrorCodeStrKeyNotFound with the gap entry from 10 to 20. -/
theorem mt_get_record_spec_witness :
    mt_get_record [(10, [1]), (20, [2])] 15 0 =
      GetRecordResult.kErrorCodeStrKeyNotFound
        ⟨gapLow [(10, [1]), (20, [2])] 15, gapHigh [(10, [1]), (20, [2])] 15⟩ :=
  ((mt_get_record_spec [(10, [1]), (20, [2])] 15 0 (by decide)).2 rfl).1

mutual

/-- Every slice stored in a well-fenced tree lies in the fence window. -/
theorem wfIn_stored : ∀ (lo hi : Nat) (t : MTree), WfIn lo hi t →
    ∀ s ∈ storedSlices t, lo ≤ s ∧ s < hi
  | lo, hi, .border slices, h => by
    intro s hs
    simp only [storedSlices] at hs
    simp only [WfIn] at h
    exact h s hs
  | lo, hi, .inter c rest, h => by
    intro s hs
    simp only [storedSlices] at hs
    simp only [WfIn] at h
    exact wfSeq_stored lo hi c rest h s hs
termination_by lo hi t => sizeOf t

/-- Every slice stored under a well-fenced child list lies in the fence window. -/
theorem wfSeq_stored : ∀ (lo hi : Nat) (c : MTree) (rest : List (KeySlice × MTree)),
    WfSeq lo hi c rest → ∀ s ∈ storedSlices c ++ storedSeq rest, lo ≤ s ∧ s < hi
  | lo, hi, c, [], h => by
    intro s hs
    simp only [storedSeq, List.append_nil] at hs
    simp only [WfSeq] at h
    exact wfIn_stored lo hi c h s hs
  | lo, hi, c, (sep, c2) :: rest, h => by
    intro s hs
    simp only [WfSeq] at h
    obtain ⟨hsep1, hsep2, hwfc, hrest⟩ := h
    simp only [storedSeq] at hs
    rcases List.mem_append.mp hs with hs1 | hs2
    · have h1 := wfIn_stored lo sep c hwfc s hs1
      exact ⟨h1.1, lt_of_lt_of_le h1.2 hsep2⟩
    · have h2 := wfSeq_stored sep hi c2 rest hrest s hs2
      exact ⟨le_trans hsep1 h2.1, h2.2⟩
termination_by lo hi c rest => sizeOf c + sizeOf rest

end

mutual

/-- Inserting a slice inside the fence window preserves well-fencedness of a tree. -/
theorem wfIn_insert : ∀ (lo hi s : Nat) (t : MTree), WfIn lo hi t → lo ≤ s → s < hi →
    WfIn lo hi (insertSlice s t)
  | lo, hi, s, .border slices, h, hlo, hhi => by
    simp only [WfIn] at h
    simp only [insertSlice, WfIn]
    intro x hx
    rcases List.mem_cons.mp hx with rfl | hx
    · exact ⟨hlo, hhi⟩
    · exact h x hx
  | lo, hi, s, .inter c rest, h, hlo, hhi => by
    simp only [WfIn] at h
    simp only [insertSlice, WfIn]
    exact wfSeq_insert lo hi s c rest h hlo hhi
termination_by lo hi s t => sizeOf t

/-- Inserting a slice inside the fence window preserves well-fencedness of a child
list. -/
theorem wfSeq_insert : ∀ (lo hi s : Nat) (c : MTree) (rest : List (KeySlice × MTree)),
    WfSeq lo hi c rest → lo ≤ s → s < hi →
    WfSeq lo hi (insertSeq s c rest).1 (insertSeq s c rest).2
  | lo, hi, s, c, [], h, hlo, hhi => by
    simp only [WfSeq] at h
    simp only [insertSeq, WfSeq]
    exact wfIn_insert lo hi s c h hlo hhi
  | lo, hi, s, c, (sep, c2) :: rest, h, hlo, hhi => by
    simp only [WfSeq] at h
    obtain ⟨h1, h2, h3, h4⟩ := h
    by_cases hlt : s < sep
    · simp only [insertSeq, if_pos hlt, WfSeq]
      exact ⟨h1, h2, wfIn_insert lo sep s c h3 hlo hlt, h4⟩
    · simp only [insertSeq, if_neg hlt, WfSeq]
      exact ⟨h1, h2, h3, wfSeq_insert sep hi s c2 rest h4 (by omega) hhi⟩
termination_by lo hi s c rest => sizeOf c + sizeOf rest

end

/-- Splitting a border page at a slice inside the fence window yields a well-fenced
two-page subtree: the left page keeps the window up to the split slice, the foster
sibling the window from it. -/
theorem wfIn_split_border (lo hi m : Nat) (slices : List KeySlice)
    (h : WfIn lo hi (MTree.border slices)) (hmlo : lo ≤ m) (hmhi : m ≤ hi) :
    WfIn lo hi (split_border m slices) := by
  simp only [WfIn] at h
  simp only [split_border, WfIn, WfSeq]
  refine ⟨hmlo, hmhi, ?_, ?_⟩
  · intro x hx
    obtain ⟨hmem, hdec⟩ := List.mem_filter.mp hx
    exact ⟨(h x hmem).1, of_decide_eq_true hdec⟩
  · intro x hx
    obtain ⟨hmem, hdec⟩ := List.mem_filter.mp hx
    have hxm : ¬ x < m := of_decide_eq_true hdec
    exact ⟨Nat.le_of_not_lt hxm, (h x hmem).2⟩

/-- C7: in the spec-level tree model, well-fencedness means every slice stored in or
reachable through a page lies in the page's half-open fence window (low fence
inclusive, high fence exclusive), and it is preserved by the modelled operations:
slice insertion and border split; afterwards all stored slices still lie within the
fences. -/
theorem masstree_fence_invariant (lo hi s m : KeySlice) (t : MTree)
    (slices : List KeySlice)
    (hwf : WfIn lo hi t) (hlo : lo ≤ s) (hhi : s < hi)
    (hwfb : WfIn lo hi (MTree.border slices)) (hmlo : lo ≤ m) (hmhi : m ≤ hi) :
    (∀ x ∈ storedSlices t, lo ≤ x ∧ x < hi) ∧
    WfIn lo hi (insertSlice s t) ∧
    WfIn lo hi (split_border m slices) ∧
    (∀ x ∈ storedSlices (insertSlice s t), lo ≤ x ∧ x < hi) ∧
    (∀ x ∈ storedSlices (split_border m slices), lo ≤ x ∧ x < hi) := by
  have h2 := wfIn_insert lo hi s t hwf hlo hhi
  have h3 := wfIn_split_border lo hi m slices hwfb hmlo hmhi
  exact ⟨wfIn_stored lo hi t hwf, h2, h3, wfIn_stored lo hi _ h2, wfIn_stored lo hi _ h3⟩

/-- Witness for the C7 theorem: inserting slice 7 into a concrete two-page tree keeps
it well-fenced in the window from 0 to 100. -/
theorem masstree_fence_invariant_witness :
    WfIn 0 100 (insertSlice 7 (MTree.inter (.border [3]) [(10, .border [12])])) :=
  (masstree_fence_invariant 0 100 7 10
    (MTree.inter (.border [3]) [(10, .border [12])]) [3, 50]
    (by simp [WfIn, WfSeq]) (by decide) (by decide)
    (by simp [WfIn]) (by decide) (by decide)).2.1

end Foedus
